import Mathlib

/-!
Verification of the caption-generator module of the pdf-speak-out repository.

The module under study exports four pure functions over JavaScript strings
and numbers:

* `generateCaptions(text, totalDuration, wordsPerSegment)` — normalizes
  whitespace, splits the text into words, and groups them into timed
  caption segments;
* `estimateAudioDuration(text, wordsPerMinute)` — estimates a speaking
  duration from a word count, with a 10-second floor;
* `splitTextIntoChunks(text, maxChunkLength)` — splits text into
  sentence-bounded chunks of bounded character length.

Shallow embedding conventions: JavaScript strings are modelled as
`List Char`; JavaScript numbers are modelled as exact rationals `ℚ`
(the functions only perform `+ * / min max` on them).  The regex-based
string operations of the source are modelled as structurally recursive
list functions with the same observable behaviour, documented case by
case below.
-/

/-- Character class of the JavaScript regex `\s` (whitespace), used by
`text.replace(/\s+/g, ' ')` and by `String.prototype.trim`. -/
def isJsSpace (c : Char) : Bool :=
  c = ' ' || c = '\t' || c = '\n' || c = '\x0b' || c = '\x0c' || c = '\r' ||
  c.val = 0xa0 || c.val = 0x1680 || (0x2000 ≤ c.val && c.val ≤ 0x200a) ||
  c.val = 0x2028 || c.val = 0x2029 || c.val = 0x202f || c.val = 0x205f ||
  c.val = 0x3000 || c.val = 0xfeff

/-- Model of `text.replace(/\s+/g, ' ')`: every maximal run of whitespace
characters is replaced by a single space.  A whitespace character followed
by another whitespace character is dropped (the run continues); the last
character of a run is emitted as `' '`. -/
def collapseWs : List Char → List Char
  | [] => []
  | [c] => if isJsSpace c then [' '] else [c]
  | c1 :: c2 :: cs =>
    if isJsSpace c1 && isJsSpace c2 then collapseWs (c2 :: cs)
    else (if isJsSpace c1 then ' ' else c1) :: collapseWs (c2 :: cs)

/-- Model of `String.prototype.trim`: remove leading and trailing
whitespace characters. -/
def trimJs (l : List Char) : List Char :=
  ((l.dropWhile isJsSpace).reverse.dropWhile isJsSpace).reverse

/-- Model of `text.split(' ')`: split on every single space character,
keeping empty pieces (as JavaScript does: `"a  b".split(' ')` is
`["a", "", "b"]` and `"".split(' ')` is `[""]`). -/
def splitOnSpace : List Char → List (List Char)
  | [] => [[]]
  | c :: cs =>
    if c = ' ' then [] :: splitOnSpace cs
    else
      match splitOnSpace cs with
      | [] => [[c]]
      | w :: ws => (c :: w) :: ws

/-- Model of `array.join(' ')` on a list of strings. -/
def joinSp : List (List Char) → List Char
  | [] => []
  | [w] => w
  | w :: ws => w ++ ' ' :: joinSp ws

/-- The word sequence produced by the first pipeline of `generateCaptions`:
`text.replace(/\s+/g, ' ').trim().split(' ').filter(word => word.length > 0)`. -/
def wordsOf (text : List Char) : List (List Char) :=
  (splitOnSpace (trimJs (collapseWs text))).filter (fun w => decide (0 < w.length))

/-- The `CaptionSegment` record of the source: start and end times in
seconds and the segment text. -/
structure CaptionSegment where
  start : ℚ
  «end» : ℚ
  text : List Char
deriving DecidableEq

/-- The segment-building loop of `generateCaptions`:
`for (let i = 0; i < words.length; i += wordsPerSegment)` with
`segmentWords = words.slice(i, i + wordsPerSegment)`,
`start = i * timePerWord`,
`end = Math.min((i + segmentWords.length) * timePerWord, totalDuration)`,
`text = segmentWords.join(' ')`.  The loop is modelled by recursion on the
words not yet consumed; `i` is the absolute index of the first remaining
word, and for `wps ≥ 1` the slice `w :: ws.take (wps - 1)` is exactly
`(w :: ws).take wps`.  (For `wps = 0` the JavaScript loop never
terminates; the model is only used with `wps ≥ 1`.)  The recursion is
bounded by a fuel argument so that it is structural (hence kernel
computable); the fuel is initialized to the list length in
`buildSegments`, which `buildSegsAux_fuel` proves sufficient: the
fuel-exhaustion arm is never reached. -/
def buildSegsAux (d tpw : ℚ) (wps : ℕ) : ℕ → ℕ → List (List Char) → List CaptionSegment
  | _, _, [] => []
  | 0, _, _ :: _ => []
  | fuel + 1, i, w :: ws =>
    let segmentWords := w :: ws.take (wps - 1)
    { start := (i : ℚ) * tpw,
      «end» := min (((i + segmentWords.length : ℕ) : ℚ) * tpw) d,
      text := joinSp segmentWords } ::
      buildSegsAux d tpw wps fuel (i + wps) (ws.drop (wps - 1))

def buildSegments (d tpw : ℚ) (wps : ℕ) (i : ℕ) (ws : List (List Char)) :
    List CaptionSegment :=
  buildSegsAux d tpw wps ws.length i ws

/-- Model of `generateCaptions(text, totalDuration, wordsPerSegment)`. -/
def generateCaptions (text : List Char) (totalDuration : ℚ) (wordsPerSegment : ℕ) :
    List CaptionSegment :=
  let words := wordsOf text
  if words.length = 0 then []
  else
    let totalWords := words.length
    let timePerWord := totalDuration / (totalWords : ℚ)
    buildSegments totalDuration timePerWord wordsPerSegment 0 words

/-- Model of `estimateAudioDuration(text, wordsPerMinute)`:
`text.split(' ').filter(word => word.trim().length > 0)`, then
`max(words.length / wordsPerMinute * 60, 10)`. -/
def estimateAudioDuration (text : List Char) (wordsPerMinute : ℚ) : ℚ :=
  let words := (splitOnSpace text).filter (fun w => decide (0 < (trimJs w).length))
  let minutes := (words.length : ℚ) / wordsPerMinute
  max (minutes * 60) 10

/-- Character class of the sentence-splitting regex `[.!?]` in
`splitTextIntoChunks`. -/
def isPunct (c : Char) : Bool :=
  c = '.' || c = '!' || c = '?'

/-- Model of `text.split(/[.!?]+/)`: split on every maximal run of
sentence punctuation, keeping empty pieces at the boundaries (as
JavaScript does: `".a.".split(/[.!?]+/)` is `["", "a", ""]`). -/
def splitPunctAux : ℕ → List Char → List (List Char)
  | _, [] => [[]]
  | 0, _ :: _ => [[]]
  | fuel + 1, c :: cs =>
    if isPunct c then [] :: splitPunctAux fuel (cs.dropWhile isPunct)
    else
      match splitPunctAux fuel cs with
      | [] => [[c]]
      | w :: ws => (c :: w) :: ws

/-- Entry point of the sentence split; the fuel of `splitPunctAux` is
initialized to the text length, which is sufficient because each step
consumes at least one character. -/
def splitPunctRuns (l : List Char) : List (List Char) :=
  splitPunctAux l.length l

/-- The accumulation loop of `splitTextIntoChunks`, with the trailing
`if (currentChunk.trim().length > 0) chunks.push(currentChunk.trim())`
folded into the base case. -/
def chunkLoop (maxLen : ℚ) : List (List Char) → List Char → List (List Char)
  | [], current =>
    if 0 < (trimJs current).length then [trimJs current] else []
  | s :: rest, current =>
    let t := trimJs s
    if t.length = 0 then chunkLoop maxLen rest current
    else if ((current.length : ℚ) + (t.length : ℚ) > maxLen) ∧ (0 < current.length) then
      trimJs current :: chunkLoop maxLen rest (t ++ ['.'])
    else
      chunkLoop maxLen rest
        (current ++ (if 0 < current.length then [' '] else []) ++ t ++ ['.'])

/-- Model of `splitTextIntoChunks(text, maxChunkLength)`. -/
def splitTextIntoChunks (text : List Char) (maxChunkLength : ℚ) : List (List Char) :=
  let sentences := (splitPunctRuns text).filter (fun s => decide (0 < (trimJs s).length))
  let chunks := chunkLoop maxChunkLength sentences []
  if 0 < chunks.length then chunks else [text]

/-! ### Arithmetic helpers about the ceiling division `(n + k - 1) / k` -/

lemma ceil_div_mul_ge (n k : ℕ) (hk : 0 < k) : n ≤ ((n + k - 1) / k) * k := by
  have h := Nat.div_add_mod (n + k - 1) k
  have hr : (n + k - 1) % k < k := Nat.mod_lt _ hk
  rw [Nat.mul_comm]
  omega

lemma window_start_lt (n k j : ℕ) (hk : 0 < k) (hj : j < (n + k - 1) / k) :
    j * k < n := by
  have h1 : j + 1 ≤ (n + k - 1) / k := hj
  have h2 : (j + 1) * k ≤ n + k - 1 := (Nat.le_div_iff_mul_le hk).mp h1
  have h3 : (j + 1) * k = j * k + k := Nat.succ_mul j k
  omega

lemma ceil_div_le_self (n k : ℕ) (hk : 0 < k) : (n + k - 1) / k ≤ n := by
  have h1 : n ≤ n * k := by
    calc n = n * 1 := (Nat.mul_one n).symm
    _ ≤ n * k := Nat.mul_le_mul_left n hk
  have h2 : n + k - 1 ≤ (k - 1) + n * k := by omega
  calc (n + k - 1) / k ≤ ((k - 1) + n * k) / k := Nat.div_le_div_right h2
  _ = (k - 1) / k + n := Nat.add_mul_div_right _ _ hk
  _ = 0 + n := by rw [Nat.div_eq_of_lt (by omega)]
  _ = n := Nat.zero_add n

lemma ceil_div_pos (n k : ℕ) (hk : 0 < k) (hn : 0 < n) : 0 < (n + k - 1) / k := by
  have : 1 * k ≤ n + k - 1 := by omega
  exact Nat.lt_of_lt_of_le Nat.zero_lt_one ((Nat.le_div_iff_mul_le hk).mpr this)

lemma ceil_div_succ (n k : ℕ) (hk : 0 < k) (hn : 0 < n) :
    (n + k - 1) / k = 1 + (n - k + k - 1) / k := by
  rcases le_or_lt k n with h | h
  · have e1 : n - k + k - 1 = n - 1 := by omega
    have e2 : n + k - 1 = (n - 1) + k := by omega
    rw [e1, e2, Nat.add_div_right _ hk, Nat.add_comm]
  · have e1 : n - k = 0 := by omega
    have e2 : (n - k + k - 1) / k = 0 := by
      rw [e1]
      exact Nat.div_eq_of_lt (by omega)
    rw [e2]
    have lo : 1 * k ≤ n + k - 1 := by omega
    have hi : n + k - 1 < Nat.succ 1 * k := by
      have : Nat.succ 1 * k = k + k := by ring
      omega
    rw [Nat.div_eq_of_lt_le lo hi]

/-! ### Structure of `buildSegments` -/

lemma buildSegsAux_fuel (d tpw : ℚ) (wps : ℕ) :
    ∀ (fuel : ℕ) (ws : List (List Char)) (i : ℕ), ws.length ≤ fuel →
      buildSegsAux d tpw wps fuel i ws = buildSegments d tpw wps i ws := by
  intro fuel
  induction fuel using Nat.strong_induction_on with
  | _ fuel ih =>
    intro ws i hlen
    cases fuel with
    | zero =>
      have : ws = [] := List.length_eq_zero.mp (Nat.le_zero.mp hlen)
      subst this
      rfl
    | succ f =>
      cases ws with
      | nil => rfl
      | cons w ws' =>
        have hl : ws'.length ≤ f := by
          simp only [List.length_cons] at hlen
          omega
        have hr : (ws'.drop (wps - 1)).length ≤ ws'.length := by
          rw [List.length_drop]
          omega
        unfold buildSegments
        show _ :: buildSegsAux d tpw wps f (i + wps) (ws'.drop (wps - 1)) =
          _ :: buildSegsAux d tpw wps ws'.length (i + wps) (ws'.drop (wps - 1))
        rw [ih f (by omega) _ _ (le_trans hr hl)]
        rw [ih ws'.length (by omega) _ _ hr]

lemma buildSegments_nil (d tpw : ℚ) (wps i : ℕ) :
    buildSegments d tpw wps i [] = [] := rfl

lemma buildSegments_cons (d tpw : ℚ) (wps i : ℕ) (w : List Char)
    (ws : List (List Char)) :
    buildSegments d tpw wps i (w :: ws) =
      { start := (i : ℚ) * tpw,
        «end» := min (((i + (w :: ws.take (wps - 1)).length : ℕ) : ℚ) * tpw) d,
        text := joinSp (w :: ws.take (wps - 1)) } ::
        buildSegments d tpw wps (i + wps) (ws.drop (wps - 1)) := by
  show buildSegsAux d tpw wps (ws.length + 1) i (w :: ws) = _
  have hlen : (ws.drop (wps - 1)).length ≤ ws.length := by
    rw [List.length_drop]
    omega
  show _ :: buildSegsAux d tpw wps ws.length (i + wps) (ws.drop (wps - 1)) = _
  rw [buildSegsAux_fuel d tpw wps ws.length (ws.drop (wps - 1)) (i + wps) hlen]

lemma buildSegments_length (d tpw : ℚ) (wps : ℕ) (hw : 0 < wps) :
    ∀ (n : ℕ) (ws : List (List Char)) (i : ℕ), ws.length ≤ n →
      (buildSegments d tpw wps i ws).length = (ws.length + wps - 1) / wps := by
  intro n
  induction n with
  | zero =>
    intro ws i hlen
    have : ws = [] := List.length_eq_zero.mp (Nat.le_zero.mp hlen)
    subst this
    simp [buildSegments_nil, Nat.div_eq_of_lt (by omega : wps - 1 < wps)]
  | succ m ih =>
    intro ws i hlen
    cases ws with
    | nil => simp [buildSegments_nil, Nat.div_eq_of_lt (by omega : wps - 1 < wps)]
    | cons w ws' =>
      rw [buildSegments_cons]
      have hdrop : (ws'.drop (wps - 1)).length ≤ m := by
        have : (ws'.drop (wps - 1)).length = ws'.length - (wps - 1) :=
          List.length_drop _ _
        have hl : ws'.length ≤ m := by
          have := hlen
          simp only [List.length_cons] at this
          omega
        omega
      rw [List.length_cons, ih (ws'.drop (wps - 1)) (i + wps) hdrop]
      have e : (ws'.drop (wps - 1)).length = (ws'.length + 1) - wps := by
        rw [List.length_drop]
        omega
      rw [e, List.length_cons]
      have := ceil_div_succ (ws'.length + 1) wps hw (by omega)
      omega

lemma buildSegments_getElem (d tpw : ℚ) (wps : ℕ) (hw : 0 < wps) :
    ∀ (j : ℕ) (ws : List (List Char)) (i : ℕ),
      j < (buildSegments d tpw wps i ws).length →
      (buildSegments d tpw wps i ws)[j]? =
        some { start := ((i + j * wps : ℕ) : ℚ) * tpw,
               «end» := min (((i + j * wps +
                 ((ws.drop (j * wps)).take wps).length : ℕ) : ℚ) * tpw) d,
               text := joinSp ((ws.drop (j * wps)).take wps) } := by
  intro j
  induction j with
  | zero =>
    intro ws i hj
    cases ws with
    | nil => rw [buildSegments_nil] at hj; simp at hj
    | cons w ws' =>
      rw [buildSegments_cons, List.getElem?_cons_zero]
      have htake : (w :: ws').take wps = w :: ws'.take (wps - 1) := by
        rw [List.take_cons hw]
      simp only [Nat.zero_mul, Nat.add_zero, List.drop_zero, htake]
  | succ j ih =>
    intro ws i hj
    cases ws with
    | nil => rw [buildSegments_nil] at hj; simp at hj
    | cons w ws' =>
      rw [buildSegments_cons] at hj ⊢
      rw [List.getElem?_cons_succ]
      rw [List.length_cons] at hj
      have hj' : j < (buildSegments d tpw wps (i + wps) (ws'.drop (wps - 1))).length := by
        omega
      rw [ih (ws'.drop (wps - 1)) (i + wps) hj']
      have hmul : (j + 1) * wps = j * wps + wps := by ring
      have hidx : i + wps + j * wps = i + (j + 1) * wps := by omega
      have hdrop : (ws'.drop (wps - 1)).drop (j * wps) =
          (w :: ws').drop ((j + 1) * wps) := by
        rw [List.drop_drop]
        have e : (j + 1) * wps = (wps - 1 + j * wps) + 1 := by omega
        rw [e, List.drop_succ_cons]
      rw [hidx, hdrop]

/-! ### Characters of the normalized word sequence -/

lemma splitOnSpace_ne_nil (l : List Char) : splitOnSpace l ≠ [] := by
  induction l with
  | nil => simp [splitOnSpace]
  | cons c cs ih =>
    simp only [splitOnSpace]
    by_cases hc : c = ' '
    · simp [hc]
    · simp only [hc, if_false]
      cases h : splitOnSpace cs with
      | nil => simp
      | cons w ws => simp

lemma splitOnSpace_chars :
    ∀ (l : List Char) (w : List Char), w ∈ splitOnSpace l →
      ∀ c ∈ w, c ∈ l ∧ c ≠ ' ' := by
  intro l
  induction l with
  | nil =>
    intro w hw c hc
    simp [splitOnSpace] at hw
    subst hw
    simp at hc
  | cons a cs ih =>
    intro w hw c hc
    simp only [splitOnSpace] at hw
    by_cases ha : a = ' '
    · simp only [ha, if_true] at hw
      rcases List.mem_cons.mp hw with h | h
      · subst h; simp at hc
      · rcases ih w h c hc with ⟨h1, h2⟩
        exact ⟨List.mem_cons_of_mem _ h1, h2⟩
    · simp only [ha, if_false] at hw
      cases hsp : splitOnSpace cs with
      | nil => exact absurd hsp (splitOnSpace_ne_nil cs)
      | cons w0 ws0 =>
        rw [hsp] at hw
        rcases List.mem_cons.mp hw with h | h
        · subst h
          rcases List.mem_cons.mp hc with h2 | h2
          · subst h2; exact ⟨List.mem_cons_self _ _, ha⟩
          · have hw0 : w0 ∈ splitOnSpace cs := by rw [hsp]; exact List.mem_cons_self _ _
            rcases ih w0 hw0 c h2 with ⟨h3, h4⟩
            exact ⟨List.mem_cons_of_mem _ h3, h4⟩
        · have hwm : w ∈ splitOnSpace cs := by rw [hsp]; exact List.mem_cons_of_mem _ h
          rcases ih w hwm c hc with ⟨h3, h4⟩
          exact ⟨List.mem_cons_of_mem _ h3, h4⟩

lemma collapseWs_space :
    ∀ (t : List Char) (c : Char), c ∈ collapseWs t → isJsSpace c = true → c = ' ' := by
  intro t
  induction t with
  | nil => intro c h; simp [collapseWs] at h
  | cons c1 cs ih =>
    intro c h hs
    cases cs with
    | nil =>
      simp only [collapseWs] at h
      cases h1 : isJsSpace c1 with
      | true => simp [h1] at h; exact h
      | false =>
        simp [h1] at h
        subst h
        rw [h1] at hs; exact absurd hs (by simp)
    | cons c2 cs2 =>
      simp only [collapseWs] at h
      cases h12 : (isJsSpace c1 && isJsSpace c2) with
      | true =>
        rw [h12] at h; simp at h
        exact ih c h hs
      | false =>
        rw [h12] at h; simp only [Bool.false_eq_true, if_false] at h
        rcases List.mem_cons.mp h with h | h
        · subst h
          cases h1 : isJsSpace c1 with
          | true => simp [h1]
          | false => simp only [h1, Bool.false_eq_true, if_false] at hs ⊢
        · exact ih c h hs

lemma collapseWs_mem :
    ∀ (t : List Char) (c : Char), c ∈ collapseWs t → isJsSpace c = false → c ∈ t := by
  intro t
  induction t with
  | nil => intro c h; simp [collapseWs] at h
  | cons c1 cs ih =>
    intro c h hs
    cases cs with
    | nil =>
      simp only [collapseWs] at h
      cases h1 : isJsSpace c1 with
      | true =>
        simp [h1] at h
        subst h; simp [isJsSpace] at hs
      | false =>
        simp [h1] at h
        subst h; exact List.mem_cons_self _ _
    | cons c2 cs2 =>
      simp only [collapseWs] at h
      cases h12 : (isJsSpace c1 && isJsSpace c2) with
      | true =>
        rw [h12] at h; simp at h
        exact List.mem_cons_of_mem _ (ih c h hs)
      | false =>
        rw [h12] at h; simp only [Bool.false_eq_true, if_false] at h
        rcases List.mem_cons.mp h with h | h
        · cases h1 : isJsSpace c1 with
          | true =>
            rw [h1] at h; simp at h
            subst h; simp [isJsSpace] at hs
          | false =>
            rw [h1] at h; simp at h
            subst h; exact List.mem_cons_self _ _
        · exact List.mem_cons_of_mem _ (ih c h hs)

lemma trimJs_subset (l : List Char) (c : Char) (h : c ∈ trimJs l) : c ∈ l := by
  unfold trimJs at h
  rw [List.mem_reverse] at h
  have h1 := (List.dropWhile_suffix isJsSpace).sublist.subset h
  rw [List.mem_reverse] at h1
  exact (List.dropWhile_suffix isJsSpace).sublist.subset h1

lemma wordsOf_words (t : List Char) (w : List Char) (hw : w ∈ wordsOf t) :
    w ≠ [] ∧ ∀ c ∈ w, isJsSpace c = false := by
  unfold wordsOf at hw
  rcases List.mem_filter.mp hw with ⟨hmem, hlen⟩
  have hne : w ≠ [] := by
    intro h; subst h; simp at hlen
  refine ⟨hne, fun c hc => ?_⟩
  rcases splitOnSpace_chars _ w hmem c hc with ⟨h1, h2⟩
  have h3 : c ∈ collapseWs t := trimJs_subset _ _ h1
  by_contra hcon
  simp only [Bool.not_eq_false] at hcon
  exact h2 (collapseWs_space _ _ h3 hcon)

lemma wordsOf_chars_mem (t : List Char) (w : List Char) (hw : w ∈ wordsOf t)
    (c : Char) (hc : c ∈ w) : c ∈ t := by
  unfold wordsOf at hw
  rcases List.mem_filter.mp hw with ⟨hmem, _⟩
  rcases splitOnSpace_chars _ w hmem c hc with ⟨h1, _⟩
  have h3 : c ∈ collapseWs t := trimJs_subset _ _ h1
  exact collapseWs_mem _ _ h3 ((wordsOf_words t w hw).2 c hc)

lemma wordsOf_eq_nil_of_space (t : List Char) (h : ∀ c ∈ t, isJsSpace c = true) :
    wordsOf t = [] := by
  cases hw : wordsOf t with
  | nil => rfl
  | cons w ws =>
    exfalso
    have hmem : w ∈ wordsOf t := by rw [hw]; exact List.mem_cons_self _ _
    rcases wordsOf_words t w hmem with ⟨hne, hchars⟩
    rcases List.exists_mem_of_ne_nil w hne with ⟨c, hc⟩
    have h1 : isJsSpace c = false := hchars c hc
    have h2 : c ∈ t := wordsOf_chars_mem t w hmem c hc
    rw [h c h2] at h1
    exact absurd h1 (by simp)

/-! ### Joining words with single spaces -/

lemma joinSp_cons_cons (w x : List Char) (L : List (List Char)) :
    joinSp (w :: x :: L) = w ++ ' ' :: joinSp (x :: L) := rfl

lemma joinSp_ne_nil (L : List (List Char)) (hL : L ≠ [])
    (hw : ∀ w ∈ L, w ≠ []) : joinSp L ≠ [] := by
  cases L with
  | nil => exact absurd rfl hL
  | cons w L' =>
    cases L' with
    | nil => exact hw w (List.mem_cons_self _ _)
    | cons x L'' =>
      rw [joinSp_cons_cons]
      simp

lemma joinSp_head? (w : List Char) (L : List (List Char)) (hw : w ≠ []) :
    (joinSp (w :: L)).head? = w.head? := by
  cases L with
  | nil => rfl
  | cons x L' =>
    rw [joinSp_cons_cons]
    cases w with
    | nil => exact absurd rfl hw
    | cons c w' => simp

lemma joinSp_getLast? (w : List Char) (hw : w ≠ []) :
    ∀ L : List (List Char), (∀ u ∈ L, u ≠ []) →
      (joinSp (L ++ [w])).getLast? = w.getLast? := by
  intro L
  induction L with
  | nil => intro _; rfl
  | cons x L' ih =>
    intro hall
    have hne : L' ++ [w] ≠ [] := by simp
    cases hLw : L' ++ [w] with
    | nil => exact absurd hLw hne
    | cons y M =>
      have hstep : joinSp (x :: L' ++ [w]) = x ++ ' ' :: joinSp (L' ++ [w]) := by
        rw [List.cons_append, hLw, joinSp_cons_cons, ← hLw]
      rw [hstep, List.getLast?_append_cons]
      have hjoin : joinSp (L' ++ [w]) ≠ [] := by
        apply joinSp_ne_nil _ hne
        intro u hu
        rcases List.mem_append.mp hu with h | h
        · exact hall u (List.mem_cons_of_mem _ h)
        · simp at h; subst h; exact hw
      cases hj : joinSp (L' ++ [w]) with
      | nil => exact absurd hj hjoin
      | cons z N =>
        rw [List.getLast?_cons_cons, ← hj]
        exact ih (fun u hu => hall u (List.mem_cons_of_mem _ hu))

/-! ### Fixed points and kernels of `trimJs` -/

lemma dropWhile_eq_self_of_head? (p : Char → Bool) (l : List Char)
    (h : ∀ c, l.head? = some c → p c = false) : l.dropWhile p = l := by
  cases l with
  | nil => rfl
  | cons a l' =>
    rw [List.dropWhile_cons, h a rfl]
    simp

lemma trimJs_eq_self (l : List Char)
    (hh : ∀ c, l.head? = some c → isJsSpace c = false)
    (hl : ∀ c, l.getLast? = some c → isJsSpace c = false) : trimJs l = l := by
  unfold trimJs
  rw [dropWhile_eq_self_of_head? _ _ hh]
  rw [dropWhile_eq_self_of_head? _ l.reverse
    (fun c hc => hl c (by rw [← List.head?_reverse]; exact hc))]
  exact List.reverse_reverse l

lemma trimJs_joinSp (L : List (List Char)) (h1 : ∀ w ∈ L, w ≠ [])
    (h2 : ∀ w ∈ L, ∀ c ∈ w, isJsSpace c = false) : trimJs (joinSp L) = joinSp L := by
  cases L with
  | nil => rfl
  | cons w L' =>
    apply trimJs_eq_self
    · intro c hc
      rw [joinSp_head? w L' (h1 w (List.mem_cons_self _ _))] at hc
      exact h2 w (List.mem_cons_self _ _) c (List.mem_of_mem_head? hc)
    · intro c hc
      have hne : w :: L' ≠ [] := by simp
      have hlast : (w :: L').getLast hne ∈ w :: L' := List.getLast_mem hne
      have hdec : (w :: L').dropLast ++ [(w :: L').getLast hne] = w :: L' :=
        List.dropLast_append_getLast hne
      rw [← hdec, joinSp_getLast? _ (h1 _ hlast) _
        (fun u hu => h1 u (List.dropLast_subset _ hu))] at hc
      exact h2 _ hlast c (List.mem_of_mem_getLast? hc)

lemma mem_dropWhile_of_not (p : Char → Bool) :
    ∀ (l : List Char) (c : Char), c ∈ l → p c = false → c ∈ l.dropWhile p := by
  intro l
  induction l with
  | nil => intro c hc; simp at hc
  | cons a l' ih =>
    intro c hc hp
    rw [List.dropWhile_cons]
    cases ha : p a with
    | true =>
      simp only [ha, if_true]
      rcases List.mem_cons.mp hc with h | h
      · subst h; rw [hp] at ha; exact absurd ha (by simp)
      · exact ih c h hp
    | false =>
      simp only [ha, Bool.false_eq_true, if_false]
      exact hc

lemma trimJs_eq_nil_iff (l : List Char) :
    trimJs l = [] ↔ ∀ c ∈ l, isJsSpace c = true := by
  constructor
  · intro h c hc
    by_contra hcon
    have hp : isJsSpace c = false := by
      cases hx : isJsSpace c with
      | true => exact absurd hx hcon
      | false => rfl
    have h1 : c ∈ l.dropWhile isJsSpace := mem_dropWhile_of_not _ l c hc hp
    have h2 : c ∈ (l.dropWhile isJsSpace).reverse := List.mem_reverse.mpr h1
    have h3 : c ∈ ((l.dropWhile isJsSpace).reverse).dropWhile isJsSpace :=
      mem_dropWhile_of_not _ _ c h2 hp
    unfold trimJs at h
    rw [List.reverse_eq_nil_iff] at h
    rw [h] at h3
    simp at h3
  · intro h
    unfold trimJs
    have h1 : l.dropWhile isJsSpace = [] :=
      List.dropWhile_eq_nil_iff.mpr (fun x hx => h x hx)
    rw [h1]
    rfl

lemma trimJs_pos_iff_any (w : List Char) :
    0 < (trimJs w).length ↔ w.any (fun c => !isJsSpace c) = true := by
  rw [List.any_eq_true]
  constructor
  · intro h
    by_contra hcon
    push_neg at hcon
    have hall : ∀ c ∈ w, isJsSpace c = true := by
      intro c hc
      have := hcon c hc
      cases hx : isJsSpace c with
      | true => rfl
      | false => exact absurd (by rw [hx]; rfl) this
    rw [(trimJs_eq_nil_iff w).mpr hall] at h
    simp at h
  · intro h
    rcases h with ⟨c, hc, hp⟩
    have hne : trimJs w ≠ [] := by
      intro he
      have hsp := (trimJs_eq_nil_iff w).mp he c hc
      rw [hsp] at hp
      simp at hp
    exact List.length_pos.mpr hne

/-! ### Splitting and rejoining -/

lemma joinSp_append (A B : List (List Char)) (hA : A ≠ []) (hB : B ≠ []) :
    joinSp (A ++ B) = joinSp A ++ ' ' :: joinSp B := by
  induction A with
  | nil => exact absurd rfl hA
  | cons w A' ih =>
    cases A' with
    | nil =>
      cases B with
      | nil => exact absurd rfl hB
      | cons b B' =>
        rw [List.singleton_append, joinSp_cons_cons]
        rfl
    | cons x A'' =>
      have hne : x :: A'' ++ B ≠ [] := by simp
      cases hax : x :: A'' ++ B with
      | nil => exact absurd hax hne
      | cons y M =>
        calc joinSp (w :: x :: A'' ++ B)
            = joinSp (w :: y :: M) := by rw [List.cons_append, hax]
          _ = w ++ ' ' :: joinSp (y :: M) := joinSp_cons_cons w y M
          _ = w ++ ' ' :: joinSp (x :: A'' ++ B) := by rw [← hax]
          _ = w ++ ' ' :: (joinSp (x :: A'') ++ ' ' :: joinSp B) := by
              rw [ih (by simp)]
          _ = (w ++ ' ' :: joinSp (x :: A'')) ++ ' ' :: joinSp B := by simp
          _ = joinSp (w :: x :: A'') ++ ' ' :: joinSp B := by
              rw [joinSp_cons_cons]

lemma buildSegments_ne_nil (d tpw : ℚ) (wps i : ℕ) (w : List Char)
    (ws : List (List Char)) : buildSegments d tpw wps i (w :: ws) ≠ [] := by
  rw [buildSegments_cons]
  simp

lemma buildSegments_texts (d tpw : ℚ) (wps : ℕ) (hw : 0 < wps) :
    ∀ (n : ℕ) (ws : List (List Char)) (i : ℕ), ws.length ≤ n →
      joinSp ((buildSegments d tpw wps i ws).map (fun s => s.text)) = joinSp ws := by
  intro n
  induction n with
  | zero =>
    intro ws i hlen
    have : ws = [] := List.length_eq_zero.mp (Nat.le_zero.mp hlen)
    subst this
    rw [buildSegments_nil]
    rfl
  | succ m ih =>
    intro ws i hlen
    cases ws with
    | nil => rw [buildSegments_nil]; rfl
    | cons w ws' =>
      rw [buildSegments_cons]
      have hlen' : ws'.length ≤ m := by
        simp only [List.length_cons] at hlen
        omega
      cases hrest : ws'.drop (wps - 1) with
      | nil =>
        rw [buildSegments_nil]
        have hle : ws'.length ≤ wps - 1 := by
          have := List.length_drop (wps - 1) ws'
          rw [hrest] at this
          simp at this
          omega
        have htake : ws'.take (wps - 1) = ws' := List.take_of_length_le hle
        simp only [List.map_cons, List.map_nil]
        rw [htake]
        rfl
      | cons r rs =>
        simp only [List.map_cons]
        have hdrop2 : (r :: rs).length ≤ m := by
          have := List.length_drop (wps - 1) ws'
          rw [hrest] at this
          omega
        have hmapped := ih (r :: rs) (i + wps) hdrop2
        cases hbs : buildSegments d tpw wps (i + wps) (r :: rs) with
        | nil => exact absurd hbs (buildSegments_ne_nil d tpw wps (i + wps) r rs)
        | cons b bs =>
          rw [hbs] at hmapped
          simp only [List.map_cons] at hmapped ⊢
          rw [joinSp_cons_cons, hmapped]
          have hsplit : (w :: ws'.take (wps - 1)) ++ (r :: rs) = w :: ws' := by
            rw [← hrest]
            rw [List.cons_append, List.take_append_drop]
          rw [← hsplit]
          rw [joinSp_append _ _ (by simp) (by simp)]

lemma ceil_div_eq_ceil (n k : ℕ) (hk : 0 < k) :
    ⌈(n : ℚ) / (k : ℚ)⌉ = (((n + k - 1) / k : ℕ) : ℤ) := by
  have hkq : (0 : ℚ) < (k : ℚ) := by exact_mod_cast hk
  rw [Int.ceil_eq_iff]
  constructor
  · rcases Nat.eq_zero_or_pos ((n + k - 1) / k) with hq | hq
    · rw [hq]
      have hnn : (0 : ℚ) ≤ (n : ℚ) / (k : ℚ) := by positivity
      simp only [Nat.cast_zero, Int.cast_zero]
      linarith
    · have hlt : ((n + k - 1) / k - 1) * k < n :=
        window_start_lt n k _ hk (by omega)
      rw [lt_div_iff₀ hkq, Int.cast_natCast]
      have hcast : (((n + k - 1) / k - 1 : ℕ) : ℚ) = (((n + k - 1) / k : ℕ) : ℚ) - 1 := by
        have h1 : 1 ≤ (n + k - 1) / k := hq
        push_cast [h1]
        ring
      rw [← hcast]
      exact_mod_cast hlt
  · rw [div_le_iff₀ hkq, Int.cast_natCast]
    have h := ceil_div_mul_ge n k hk
    exact_mod_cast h

/-! ### Unfolding `generateCaptions` -/

lemma generateCaptions_of_no_words (text : List Char) (d : ℚ) (wps : ℕ)
    (h : wordsOf text = []) : generateCaptions text d wps = [] := by
  unfold generateCaptions
  rw [h]
  rfl

lemma generateCaptions_of_words (text : List Char) (d : ℚ) (wps : ℕ)
    (h : wordsOf text ≠ []) :
    generateCaptions text d wps =
      buildSegments d (d / ((wordsOf text).length : ℚ)) wps 0 (wordsOf text) := by
  unfold generateCaptions
  rw [if_neg (by simpa using h)]

lemma generateCaptions_length (text : List Char) (d : ℚ) (wps : ℕ) (hw : 0 < wps) :
    (generateCaptions text d wps).length = ((wordsOf text).length + wps - 1) / wps := by
  by_cases h : wordsOf text = []
  · rw [generateCaptions_of_no_words text d wps h, h]
    simp [Nat.div_eq_of_lt (by omega : wps - 1 < wps)]
  · rw [generateCaptions_of_words text d wps h]
    exact buildSegments_length d _ wps hw (wordsOf text).length (wordsOf text) 0 le_rfl

/-! ### Claim theorems -/

/-- Claim C2: for `totalDuration > 0` and `wordsPerSegment ≥ 1`, the number of
segments returned by `generateCaptions` equals `⌈wordCount / wordsPerSegment⌉`,
and the count is 0 when the word count is 0. -/
theorem generateCaptions_count (text : List Char) (d : ℚ) (wps : ℕ)
    (hd : 0 < d) (hw : 1 ≤ wps) :
    ((generateCaptions text d wps).length : ℤ) =
      ⌈((wordsOf text).length : ℚ) / (wps : ℚ)⌉ ∧
    (wordsOf text = [] → (generateCaptions text d wps).length = 0) := by
  constructor
  · rw [generateCaptions_length text d wps hw, ceil_div_eq_ceil _ _ hw]
  · intro h
    rw [generateCaptions_of_no_words text d wps h]
    rfl

/-- Witness for C2 on the three-word text `"a b c"` with duration 3 and
two words per segment. -/
theorem generateCaptions_count_witness :
    ((0 : ℚ) < 3 ∧ 1 ≤ 2) ∧
    ((generateCaptions ['a', ' ', 'b', ' ', 'c'] 3 2).length : ℤ) =
      ⌈((wordsOf ['a', ' ', 'b', ' ', 'c']).length : ℚ) / (2 : ℚ)⌉ ∧
    (wordsOf ['a', ' ', 'b', ' ', 'c'] = [] →
      (generateCaptions ['a', ' ', 'b', ' ', 'c'] 3 2).length = 0) :=
  ⟨⟨by decide, by decide⟩,
    generateCaptions_count ['a', ' ', 'b', ' ', 'c'] 3 2 (by decide) (by decide)⟩

/-- Claim C3: joining the `text` fields of all segments with single spaces
reproduces the normalized input word sequence joined with single spaces. -/
theorem generateCaptions_roundTrip (text : List Char) (d : ℚ) (wps : ℕ)
    (hd : 0 < d) (hw : 1 ≤ wps) :
    joinSp ((generateCaptions text d wps).map (fun s => s.text)) =
      joinSp (wordsOf text) := by
  by_cases h : wordsOf text = []
  · rw [generateCaptions_of_no_words text d wps h, h]
    rfl
  · rw [generateCaptions_of_words text d wps h]
    exact buildSegments_texts d _ wps hw (wordsOf text).length (wordsOf text) 0 le_rfl

/-- Witness for C3 on the three-word text `"a b c"`. -/
theorem generateCaptions_roundTrip_witness :
    ((0 : ℚ) < 3 ∧ 1 ≤ 2) ∧
    joinSp ((generateCaptions ['a', ' ', 'b', ' ', 'c'] 3 2).map (fun s => s.text)) =
      joinSp (wordsOf ['a', ' ', 'b', ' ', 'c']) :=
  ⟨⟨by decide, by decide⟩,
    generateCaptions_roundTrip ['a', ' ', 'b', ' ', 'c'] 3 2 (by decide) (by decide)⟩

/-- Claim C6: for empty or whitespace-only input text, `generateCaptions`
returns the empty sequence for any duration and any segment size; the guard
`if (words.length === 0) return []` fires before the division
`totalDuration / totalWords` is evaluated. -/
theorem generateCaptions_empty (text : List Char) (d : ℚ) (wps : ℕ)
    (h : ∀ c ∈ text, isJsSpace c = true) :
    generateCaptions text d wps = [] :=
  generateCaptions_of_no_words text d wps (wordsOf_eq_nil_of_space text h)

/-- Witness for C6 on the whitespace-only text `" \t "`. -/
theorem generateCaptions_empty_witness :
    (∀ c ∈ [' ', '\t', ' '], isJsSpace c = true) ∧
    generateCaptions [' ', '\t', ' '] 10 8 = [] :=
  ⟨by decide, generateCaptions_empty [' ', '\t', ' '] 10 8 (by decide)⟩

/-- Claim C9: `generateCaptions` always terminates and its loop iteration
count (= number of produced segments) is bounded by the word count of the
input; termination itself is witnessed by `generateCaptions` being a total
function in this development. -/
theorem generateCaptions_bounded (text : List Char) (d : ℚ) (wps : ℕ)
    (hw : 1 ≤ wps) :
    (generateCaptions text d wps).length ≤ (wordsOf text).length := by
  rw [generateCaptions_length text d wps hw]
  exact ceil_div_le_self _ _ hw

/-- Witness for C9 on the three-word text `"a b c"`. -/
theorem generateCaptions_bounded_witness :
    1 ≤ 2 ∧
    (generateCaptions ['a', ' ', 'b', ' ', 'c'] 3 2).length ≤
      (wordsOf ['a', ' ', 'b', ' ', 'c']).length :=
  ⟨by decide, generateCaptions_bounded ['a', ' ', 'b', ' ', 'c'] 3 2 (by decide)⟩

lemma window_mem (ws : List (List Char)) (i wps : ℕ) :
    ∀ w ∈ (ws.drop i).take wps, w ∈ ws := by
  intro w hw
  exact (List.drop_sublist _ _).subset ((List.take_sublist _ _).subset hw)

lemma window_ne_nil (ws : List (List Char)) (i wps : ℕ) (hw : 0 < wps)
    (h : i < ws.length) : (ws.drop i).take wps ≠ [] := by
  have hlen : ((ws.drop i).take wps).length = min wps (ws.length - i) := by
    rw [List.length_take, List.length_drop]
  intro he
  rw [he] at hlen
  simp only [List.length_nil] at hlen
  omega

/-- Claim C1: for a text with at least one word, `totalDuration > 0` and
`wordsPerSegment ≥ 1`, the `j`-th segment covers the window starting at
word-index `i = j * wordsPerSegment` with `g` words and has
`start = i * timePerWord`, `end = min((i+g) * timePerWord, totalDuration)`
where `timePerWord = totalDuration / wordCount`, and `text` equal to the
window's words rejoined with single spaces; consequently every segment's text
is non-empty and whitespace-trimmed. -/
theorem generateCaptions_segment_spec (text : List Char) (d : ℚ) (wps : ℕ)
    (hne : wordsOf text ≠ []) (hd : 0 < d) (hw : 1 ≤ wps)
    (j : ℕ) (hj : j < (generateCaptions text d wps).length) :
    (generateCaptions text d wps)[j]? =
      some { start := ((j * wps : ℕ) : ℚ) * (d / ((wordsOf text).length : ℚ)),
             «end» := min (((j * wps +
                 (((wordsOf text).drop (j * wps)).take wps).length : ℕ) : ℚ) *
               (d / ((wordsOf text).length : ℚ))) d,
             text := joinSp (((wordsOf text).drop (j * wps)).take wps) } ∧
    joinSp (((wordsOf text).drop (j * wps)).take wps) ≠ [] ∧
    trimJs (joinSp (((wordsOf text).drop (j * wps)).take wps)) =
      joinSp (((wordsOf text).drop (j * wps)).take wps) := by
  have hjlen : j < (buildSegments d (d / ((wordsOf text).length : ℚ)) wps 0
      (wordsOf text)).length := by
    rw [← generateCaptions_of_words text d wps hne]
    exact hj
  have hget := buildSegments_getElem d (d / ((wordsOf text).length : ℚ)) wps hw j
    (wordsOf text) 0 hjlen
  simp only [Nat.zero_add] at hget
  have hjw : j * wps < (wordsOf text).length := by
    rw [generateCaptions_length text d wps hw] at hj
    exact window_start_lt _ _ _ hw hj
  have hwin_ne : ((wordsOf text).drop (j * wps)).take wps ≠ [] :=
    window_ne_nil _ _ _ hw hjw
  have hwords : ∀ w ∈ ((wordsOf text).drop (j * wps)).take wps, w ∈ wordsOf text :=
    window_mem _ _ _
  refine ⟨?_, ?_, ?_⟩
  · rw [generateCaptions_of_words text d wps hne]
    exact hget
  · exact joinSp_ne_nil _ hwin_ne (fun w hmem => (wordsOf_words text w (hwords w hmem)).1)
  · exact trimJs_joinSp _ (fun w hmem => (wordsOf_words text w (hwords w hmem)).1)
      (fun w hmem => (wordsOf_words text w (hwords w hmem)).2)

/-- Witness for C1 on the text `"a b c"`, duration 3, two words per segment,
segment index 1 (the final one-word window). -/
theorem generateCaptions_segment_spec_witness :
    (wordsOf ['a', ' ', 'b', ' ', 'c'] ≠ [] ∧ (0 : ℚ) < 3 ∧ 1 ≤ 2 ∧
      1 < (generateCaptions ['a', ' ', 'b', ' ', 'c'] 3 2).length) ∧
    (generateCaptions ['a', ' ', 'b', ' ', 'c'] 3 2)[1]? =
      some { start := ((1 * 2 : ℕ) : ℚ) * (3 / ((wordsOf ['a', ' ', 'b', ' ', 'c']).length : ℚ)),
             «end» := min (((1 * 2 +
                 (((wordsOf ['a', ' ', 'b', ' ', 'c']).drop (1 * 2)).take 2).length : ℕ) : ℚ) *
               (3 / ((wordsOf ['a', ' ', 'b', ' ', 'c']).length : ℚ))) 3,
             text := joinSp (((wordsOf ['a', ' ', 'b', ' ', 'c']).drop (1 * 2)).take 2) } ∧
    joinSp (((wordsOf ['a', ' ', 'b', ' ', 'c']).drop (1 * 2)).take 2) ≠ [] ∧
    trimJs (joinSp (((wordsOf ['a', ' ', 'b', ' ', 'c']).drop (1 * 2)).take 2)) =
      joinSp (((wordsOf ['a', ' ', 'b', ' ', 'c']).drop (1 * 2)).take 2) :=
  ⟨⟨by decide, by decide, by decide, by decide⟩,
    generateCaptions_segment_spec ['a', ' ', 'b', ' ', 'c'] 3 2
      (by decide) (by decide) (by decide) 1 (by decide)⟩

lemma lt_length_of_getElem?_eq_some (l : List CaptionSegment) (n : ℕ)
    (a : CaptionSegment) (h : l[n]? = some a) : n < l.length := by
  by_contra hc
  push_neg at hc
  rw [List.getElem?_eq_none hc] at h
  exact Option.noConfusion h

lemma wc_mul_tpw (d : ℚ) (wc : ℕ) (hwc : 0 < wc) :
    (wc : ℚ) * (d / (wc : ℚ)) = d := by
  have hne : (wc : ℚ) ≠ 0 := by positivity
  rw [mul_comm]
  exact div_mul_cancel₀ d hne

lemma raw_le_duration (d : ℚ) (wc m : ℕ) (hwc : 0 < wc) (hd : 0 < d)
    (hm : m ≤ wc) : ((m : ℕ) : ℚ) * (d / (wc : ℚ)) ≤ d := by
  have htpw : (0 : ℚ) ≤ d / (wc : ℚ) := by positivity
  have hcast : ((m : ℕ) : ℚ) ≤ ((wc : ℕ) : ℚ) := by exact_mod_cast hm
  calc ((m : ℕ) : ℚ) * (d / (wc : ℚ)) ≤ ((wc : ℕ) : ℚ) * (d / (wc : ℚ)) :=
        mul_le_mul_of_nonneg_right hcast htpw
  _ = d := wc_mul_tpw d wc hwc

/-- Claim C4: the segments tile `[0, totalDuration]`: the first segment starts
at 0; each non-final segment's end equals the next segment's start; the last
segment's end never exceeds `totalDuration`; and (because over exact rational
arithmetic the last window's raw value `wordCount * timePerWord` equals
`totalDuration` exactly, so the clamp condition of the claim is satisfied)
the last segment's end equals `totalDuration`. -/
theorem generateCaptions_tiling (text : List Char) (d : ℚ) (wps : ℕ)
    (hne : wordsOf text ≠ []) (hd : 0 < d) (hw : 1 ≤ wps) :
    (∀ s, (generateCaptions text d wps)[0]? = some s → s.start = 0) ∧
    (∀ j s s', (generateCaptions text d wps)[j]? = some s →
      (generateCaptions text d wps)[j + 1]? = some s' → s.«end» = s'.start) ∧
    (∀ s, (generateCaptions text d wps)[(generateCaptions text d wps).length - 1]? =
        some s → s.«end» ≤ d ∧ s.«end» = d) := by
  have hwc : 0 < (wordsOf text).length := List.length_pos.mpr hne
  have hlen := generateCaptions_length text d wps hw
  refine ⟨?_, ?_, ?_⟩
  · intro s hs
    have h0 : 0 < (generateCaptions text d wps).length := by
      have := lt_length_of_getElem?_eq_some _ _ _ hs
      omega
    have hspec := (generateCaptions_segment_spec text d wps hne hd hw 0 h0).1
    rw [hs] at hspec
    have := Option.some.inj hspec
    rw [this]
    simp
  · intro j s s' hs hs'
    have hj1 : j + 1 < (generateCaptions text d wps).length :=
      lt_length_of_getElem?_eq_some _ _ _ hs'
    have hj : j < (generateCaptions text d wps).length := by omega
    have hspec := (generateCaptions_segment_spec text d wps hne hd hw j hj).1
    have hspec' := (generateCaptions_segment_spec text d wps hne hd hw (j + 1) hj1).1
    rw [hs] at hspec
    rw [hs'] at hspec'
    have hseq := Option.some.inj hspec
    have hseq' := Option.some.inj hspec'
    rw [hseq, hseq']
    have hjw1 : (j + 1) * wps < (wordsOf text).length := by
      rw [hlen] at hj1
      exact window_start_lt _ _ _ hw hj1
    have hg : (((wordsOf text).drop (j * wps)).take wps).length = wps := by
      rw [List.length_take, List.length_drop]
      have : (j + 1) * wps = j * wps + wps := by ring
      omega
    show min _ d = _
    rw [hg]
    have hcast : ((j * wps + wps : ℕ) : ℚ) = (((j + 1) * wps : ℕ) : ℚ) := by
      congr 1
      ring
    rw [hcast]
    exact min_eq_left (raw_le_duration d _ _ hwc hd (le_of_lt hjw1))
  · intro s hs
    have hpos : 0 < (generateCaptions text d wps).length := by
      rw [hlen]
      exact ceil_div_pos _ _ hw hwc
    have hjlt : (generateCaptions text d wps).length - 1 <
        (generateCaptions text d wps).length := by omega
    have hspec := (generateCaptions_segment_spec text d wps hne hd hw _ hjlt).1
    rw [hs] at hspec
    have hseq := Option.some.inj hspec
    rw [hseq]
    have hi : ((generateCaptions text d wps).length - 1) * wps <
        (wordsOf text).length := by
      rw [hlen] at hjlt ⊢
      exact window_start_lt _ _ _ hw hjlt
    have hub : (wordsOf text).length ≤ (generateCaptions text d wps).length * wps := by
      rw [hlen]
      exact ceil_div_mul_ge _ _ hw
    have hg : ((generateCaptions text d wps).length - 1) * wps +
        (((wordsOf text).drop (((generateCaptions text d wps).length - 1) * wps)).take
          wps).length = (wordsOf text).length := by
      rw [List.length_take, List.length_drop]
      have hmul : (generateCaptions text d wps).length * wps =
          ((generateCaptions text d wps).length - 1) * wps + wps := by
        have e : (generateCaptions text d wps).length =
            ((generateCaptions text d wps).length - 1) + 1 := by omega
        calc (generateCaptions text d wps).length * wps
            = (((generateCaptions text d wps).length - 1) + 1) * wps := by rw [← e]
        _ = ((generateCaptions text d wps).length - 1) * wps + wps := by ring
      omega
    show min _ d ≤ d ∧ min _ d = d
    rw [hg, wc_mul_tpw d _ hwc, min_self]
    exact ⟨le_refl d, rfl⟩

/-- Witness for C4 on the text `"a b c"`, duration 3, two words per segment. -/
theorem generateCaptions_tiling_witness :
    (wordsOf ['a', ' ', 'b', ' ', 'c'] ≠ [] ∧ (0 : ℚ) < 3 ∧ 1 ≤ 2) ∧
    (∀ s, (generateCaptions ['a', ' ', 'b', ' ', 'c'] 3 2)[0]? = some s → s.start = 0) ∧
    (∀ j s s', (generateCaptions ['a', ' ', 'b', ' ', 'c'] 3 2)[j]? = some s →
      (generateCaptions ['a', ' ', 'b', ' ', 'c'] 3 2)[j + 1]? = some s' →
      s.«end» = s'.start) ∧
    (∀ s, (generateCaptions ['a', ' ', 'b', ' ', 'c'] 3 2)[
        (generateCaptions ['a', ' ', 'b', ' ', 'c'] 3 2).length - 1]? = some s →
      s.«end» ≤ 3 ∧ s.«end» = 3) :=
  ⟨⟨by decide, by decide, by decide⟩,
    generateCaptions_tiling ['a', ' ', 'b', ' ', 'c'] 3 2 (by decide) (by decide) (by decide)⟩

/-- Claim C5: segment start times are monotonically non-decreasing, and every
segment satisfies `end ≥ start`. -/
theorem generateCaptions_monotone (text : List Char) (d : ℚ) (wps : ℕ)
    (hne : wordsOf text ≠ []) (hd : 0 < d) (hw : 1 ≤ wps) :
    (generateCaptions text d wps).Pairwise (fun a b => a.start ≤ b.start) ∧
    ∀ s ∈ generateCaptions text d wps, s.start ≤ s.«end» := by
  have hwc : 0 < (wordsOf text).length := List.length_pos.mpr hne
  have htpw : (0 : ℚ) ≤ d / ((wordsOf text).length : ℚ) := by positivity
  have hlen := generateCaptions_length text d wps hw
  constructor
  · rw [List.pairwise_iff_getElem]
    intro a b ha hb hab
    have hsa := (generateCaptions_segment_spec text d wps hne hd hw a ha).1
    have hsb := (generateCaptions_segment_spec text d wps hne hd hw b hb).1
    rw [List.getElem?_eq_getElem ha] at hsa
    rw [List.getElem?_eq_getElem hb] at hsb
    rw [Option.some.inj hsa, Option.some.inj hsb]
    show ((a * wps : ℕ) : ℚ) * _ ≤ ((b * wps : ℕ) : ℚ) * _
    apply mul_le_mul_of_nonneg_right _ htpw
    have : a * wps ≤ b * wps := Nat.mul_le_mul_right wps (le_of_lt hab)
    exact_mod_cast this
  · intro s hs
    rcases List.mem_iff_getElem.mp hs with ⟨j, hj, hget⟩
    have hspec := (generateCaptions_segment_spec text d wps hne hd hw j hj).1
    rw [List.getElem?_eq_getElem hj, hget] at hspec
    rw [Option.some.inj hspec]
    show ((j * wps : ℕ) : ℚ) * _ ≤ min _ d
    apply le_min
    · apply mul_le_mul_of_nonneg_right _ htpw
      have : j * wps ≤ j * wps +
          (((wordsOf text).drop (j * wps)).take wps).length := Nat.le_add_right _ _
      exact_mod_cast this
    · have hjw : j * wps < (wordsOf text).length := by
        rw [hlen] at hj
        exact window_start_lt _ _ _ hw hj
      exact raw_le_duration d _ _ hwc hd (le_of_lt hjw)

/-- Witness for C5 on the text `"a b c"`, duration 3, two words per segment. -/
theorem generateCaptions_monotone_witness :
    (wordsOf ['a', ' ', 'b', ' ', 'c'] ≠ [] ∧ (0 : ℚ) < 3 ∧ 1 ≤ 2) ∧
    (generateCaptions ['a', ' ', 'b', ' ', 'c'] 3 2).Pairwise
      (fun a b => a.start ≤ b.start) ∧
    ∀ s ∈ generateCaptions ['a', ' ', 'b', ' ', 'c'] 3 2, s.start ≤ s.«end» :=
  ⟨⟨by decide, by decide, by decide⟩,
    generateCaptions_monotone ['a', ' ', 'b', ' ', 'c'] 3 2
      (by decide) (by decide) (by decide)⟩

/-- Counterexample to C7 as stated: on the text `"a \t b"` (whose
space-split tokens are `"a"`, `"\t"`, `"b"`, all non-empty) at 1 word per
minute, the code returns 120 (it keeps only the 2 tokens with non-empty
trim), not the claimed `max(3 / 1 * 60, 10) = 180` computed from the 3
non-empty tokens. -/
theorem estimateAudioDuration_claim_false :
    estimateAudioDuration ['a', ' ', '\t', ' ', 'b'] 1 = 120 ∧
    ((splitOnSpace ['a', ' ', '\t', ' ', 'b']).filter
        (fun w => decide (0 < w.length))).length = 3 ∧
    estimateAudioDuration ['a', ' ', '\t', ' ', 'b'] 1 ≠
      max (((3 : ℕ) : ℚ) / 1 * 60) 10 := by
  have hlen2 : ((splitOnSpace ['a', ' ', '\t', ' ', 'b']).filter
      (fun w => decide (0 < (trimJs w).length))).length = 2 := by decide
  have h1 : estimateAudioDuration ['a', ' ', '\t', ' ', 'b'] 1 = 120 := by
    simp only [estimateAudioDuration]
    rw [hlen2, max_def]
    norm_num
  refine ⟨h1, by decide, ?_⟩
  rw [h1, max_def]
  norm_num

set_option maxRecDepth 100000 in
/-- Claim C7 amended: `estimateAudioDuration` splits the text on literal
space characters, filters out the tokens that are empty or whitespace-only
(the source filters on `word.trim().length > 0`, which drops whitespace-only
tokens, not merely empty ones), and returns
`max(wordCount / wordsPerMinute * 60, 10)`; in particular
`estimateAudioDuration("one two three", 150) = 10` and a 300-word text at
150 WPM yields 120 seconds. -/
theorem estimateAudioDuration_spec (text : List Char) (wpm : ℚ) (hw : 0 < wpm) :
    estimateAudioDuration text wpm =
      max ((((splitOnSpace text).filter
          (fun w => w.any (fun c => !isJsSpace c))).length : ℚ) / wpm * 60) 10 ∧
    estimateAudioDuration
      ['o', 'n', 'e', ' ', 't', 'w', 'o', ' ', 't', 'h', 'r', 'e', 'e'] 150 = 10 ∧
    estimateAudioDuration (joinSp (List.replicate 300 ['w', 'd'])) 150 = 120 := by
  have h13 : ((splitOnSpace
      ['o', 'n', 'e', ' ', 't', 'w', 'o', ' ', 't', 'h', 'r', 'e', 'e']).filter
      (fun w => decide (0 < (trimJs w).length))).length = 3 := by decide
  have h300 : ((splitOnSpace (joinSp (List.replicate 300 ['w', 'd']))).filter
      (fun w => decide (0 < (trimJs w).length))).length = 300 := by decide
  have hex1 : estimateAudioDuration
      ['o', 'n', 'e', ' ', 't', 'w', 'o', ' ', 't', 'h', 'r', 'e', 'e'] 150 = 10 := by
    simp only [estimateAudioDuration]
    rw [h13, max_def]
    norm_num
  have hex2 : estimateAudioDuration (joinSp (List.replicate 300 ['w', 'd'])) 150 = 120 := by
    simp only [estimateAudioDuration]
    rw [h300, max_def]
    norm_num
  have hfe : ∀ w : List Char,
      decide (0 < (trimJs w).length) = w.any (fun c => !isJsSpace c) := by
    intro w
    cases ha : w.any (fun c => !isJsSpace c) with
    | true => exact decide_eq_true ((trimJs_pos_iff_any w).mpr ha)
    | false =>
      apply decide_eq_false
      intro hpos
      rw [(trimJs_pos_iff_any w).mp hpos] at ha
      exact Bool.noConfusion ha
  refine ⟨?_, hex1, hex2⟩
  simp only [estimateAudioDuration]
  rw [List.filter_congr (fun a _ => hfe a)]

/-- Witness for the amended C7 on the text `"hi"` at 150 WPM. -/
theorem estimateAudioDuration_spec_witness :
    (0 : ℚ) < 150 ∧
    (estimateAudioDuration ['h', 'i'] 150 =
      max ((((splitOnSpace ['h', 'i']).filter
          (fun w => w.any (fun c => !isJsSpace c))).length : ℚ) / 150 * 60) 10 ∧
    estimateAudioDuration
      ['o', 'n', 'e', ' ', 't', 'w', 'o', ' ', 't', 'h', 'r', 'e', 'e'] 150 = 10 ∧
    estimateAudioDuration (joinSp (List.replicate 300 ['w', 'd'])) 150 = 120) :=
  ⟨by decide, estimateAudioDuration_spec ['h', 'i'] 150 (by decide)⟩

/-- Counterexample to C8 as stated: with `totalDuration = -10` (and
`wordsPerSegment = 1`) `generateCaptions` does not fail fast with an
invalid-argument signal; it silently returns two segments, with degenerate
timings (each has `end = -10`, and the second has `end < start`). -/
theorem generateCaptions_claim_false :
    generateCaptions ['a', ' ', 'b'] (-10) 1 =
      [{ start := 0, «end» := -10, text := ['a'] },
       { start := -5, «end» := -10, text := ['b'] }] := by
  have hwords : wordsOf ['a', ' ', 'b'] = [['a'], ['b']] := by decide
  have hne : wordsOf ['a', ' ', 'b'] ≠ [] := by rw [hwords]; simp
  rw [generateCaptions_of_words _ _ _ hne, hwords]
  rw [buildSegments_cons]
  simp only [Nat.sub_self, List.take_zero, List.drop_zero]
  rw [buildSegments_cons]
  simp only [Nat.sub_self, List.take_zero, List.drop_zero, buildSegments_nil]
  simp only [List.cons.injEq, CaptionSegment.mk.injEq, and_true, List.length_cons,
    List.length_nil, List.length_singleton]
  refine ⟨⟨?_, ?_, rfl⟩, ?_, ?_, rfl⟩
  · push_cast
    norm_num
  · rw [min_def]
    push_cast
    norm_num
  · push_cast
    norm_num
  · rw [min_def]
    push_cast
    norm_num

/-- Claim C8 corrected: `generateCaptions` performs no validation of its
arguments.  For `totalDuration < 0` (with at least one word and
`wordsPerSegment ≥ 1`) it silently returns a non-empty sequence of segments,
every one of which has a negative end time, rather than failing fast with an
invalid-argument signal — no such signal exists in the code.  (For
`wordsPerSegment ≤ 0` the JavaScript loop does not terminate at all, which is
likewise not a fail-fast signal.) -/
theorem generateCaptions_silent_on_negative (text : List Char) (d : ℚ) (wps : ℕ)
    (hne : wordsOf text ≠ []) (hd : d < 0) (hw : 1 ≤ wps) :
    generateCaptions text d wps ≠ [] ∧
    ∀ s ∈ generateCaptions text d wps, s.«end» < 0 := by
  have hwc : 0 < (wordsOf text).length := List.length_pos.mpr hne
  constructor
  · intro he
    have hlen := generateCaptions_length text d wps hw
    rw [he] at hlen
    have hpos := ceil_div_pos (wordsOf text).length wps hw hwc
    simp only [List.length_nil] at hlen
    omega
  · intro s hs
    rcases List.mem_iff_getElem.mp hs with ⟨j, hj, hget⟩
    have hjlen : j < (buildSegments d (d / ((wordsOf text).length : ℚ)) wps 0
        (wordsOf text)).length := by
      rw [← generateCaptions_of_words text d wps hne]
      exact hj
    have hspec := buildSegments_getElem d (d / ((wordsOf text).length : ℚ)) wps hw j
      (wordsOf text) 0 hjlen
    rw [← generateCaptions_of_words text d wps hne] at hspec
    rw [List.getElem?_eq_getElem hj, hget] at hspec
    rw [Option.some.inj hspec]
    show min _ d < 0
    exact lt_of_le_of_lt (min_le_right _ d) hd

/-- Witness for the corrected C8 on the text `"a b"` with duration -10 and
one word per segment. -/
theorem generateCaptions_silent_on_negative_witness :
    (wordsOf ['a', ' ', 'b'] ≠ [] ∧ (-10 : ℚ) < 0 ∧ 1 ≤ 1) ∧
    (generateCaptions ['a', ' ', 'b'] (-10) 1 ≠ [] ∧
      ∀ s ∈ generateCaptions ['a', ' ', 'b'] (-10) 1, s.«end» < 0) :=
  ⟨⟨by decide, by decide, by decide⟩,
    generateCaptions_silent_on_negative ['a', ' ', 'b'] (-10) 1
      (by decide) (by decide) (by decide)⟩

/-- Claim C10: `splitTextIntoChunks` always returns a non-empty array; when
sentence splitting on the punctuation characters `.`, `!`, `?` yields no
non-empty sentence (for example an empty or punctuation-only input), it falls
back to the single-element array containing the original text verbatim, which
may itself be empty or untrimmed. -/
theorem splitTextIntoChunks_nonempty (text : List Char) (maxLen : ℚ) :
    splitTextIntoChunks text maxLen ≠ [] ∧
    ((splitPunctRuns text).filter (fun s => decide (0 < (trimJs s).length)) = [] →
      splitTextIntoChunks text maxLen = [text]) := by
  constructor
  · simp only [splitTextIntoChunks]
    by_cases h : 0 < (chunkLoop maxLen
        ((splitPunctRuns text).filter (fun s => decide (0 < (trimJs s).length))) []).length
    · rw [if_pos h]
      exact List.length_pos.mp h
    · rw [if_neg h]
      simp
  · intro h
    simp only [splitTextIntoChunks]
    rw [h]
    have hempty : chunkLoop maxLen [] [] = [] := rfl
    rw [hempty]
    simp

/-- Witness for C10 on the punctuation-only text `".!"` with limit 500:
the fallback returns the original text verbatim. -/
theorem splitTextIntoChunks_nonempty_witness :
    splitTextIntoChunks ['.', '!'] 500 ≠ [] ∧
    splitTextIntoChunks ['.', '!'] 500 = [['.', '!']] :=
  ⟨(splitTextIntoChunks_nonempty ['.', '!'] 500).1,
    (splitTextIntoChunks_nonempty ['.', '!'] 500).2 (by decide)⟩
